import Mathlib

/-!
Verification of `src/dev/mod.ts` (the development-mode orchestration module of
the Fresh web framework fork).

JavaScript strings are embedded as `List Char`; JS objects
(`Record<string, string>`) as insertion-ordered association lists; the
filesystem as an inductive tree; the sequential statements of `dev()` as an
explicit event trace.  Functions re-exported through `deps.ts` (which is not
part of the sources: `posix.normalize`, `join`, `relative`, `walk`, `exists`
come from the Deno standard library) are modelled from the spec and from the
standard library's documented posix semantics.
-/

namespace Fresh

/-- A JS string, embedded as its list of characters. -/
def str (s : String) : List Char := s.data

/-- Lexicographic comparison of two character sequences (the order used by the
JS default `Array.prototype.sort` comparator; characters compared by code
point, which agrees with UTF-16 code-unit order on the Basic Multilingual
Plane). -/
def lexLe : List Char → List Char → Bool
  | [], _ => true
  | _ :: _, [] => false
  | c :: cs, d :: ds => if c < d then true else if d < c then false else lexLe cs ds

/-- The sort order on paths, as a `Prop`-valued relation. -/
def pathLe (a b : List Char) : Prop := lexLe a b = true

instance : DecidableRel pathLe := fun a b => instDecidableEqBool (lexLe a b) true

theorem lexLe_cons_iff (c d : Char) (cs ds : List Char) :
    lexLe (c :: cs) (d :: ds) = true ↔ c < d ∨ (c = d ∧ lexLe cs ds = true) := by
  simp only [lexLe]
  rcases lt_trichotomy c d with h | h | h
  · simp [h]
  · subst h
    simp [lt_irrefl]
  · simp [not_lt_of_gt h, h, ne_of_gt h, lt_irrefl]

theorem lexLe_total : ∀ a b, lexLe a b = true ∨ lexLe b a = true := by
  intro a
  induction a with
  | nil => intro b; left; rfl
  | cons c cs ih =>
    intro b
    cases b with
    | nil => right; rfl
    | cons d ds =>
      rw [lexLe_cons_iff, lexLe_cons_iff]
      rcases lt_trichotomy c d with h | h | h
      · exact Or.inl (Or.inl h)
      · subst h
        rcases ih ds with h' | h'
        · exact Or.inl (Or.inr ⟨rfl, h'⟩)
        · exact Or.inr (Or.inr ⟨rfl, h'⟩)
      · exact Or.inr (Or.inl h)

theorem lexLe_trans : ∀ a b c, lexLe a b = true → lexLe b c = true → lexLe a c = true := by
  intro a
  induction a with
  | nil => intro b c _ _; rfl
  | cons x xs ih =>
    intro b c hab hbc
    cases b with
    | nil => simp [lexLe] at hab
    | cons y ys =>
      cases c with
      | nil => simp [lexLe] at hbc
      | cons z zs =>
        rw [lexLe_cons_iff] at hab hbc ⊢
        rcases hab with hxy | ⟨hxy, hr1⟩
        · rcases hbc with hyz | ⟨hyz, _⟩
          · exact Or.inl (lt_trans hxy hyz)
          · exact Or.inl (hyz ▸ hxy)
        · subst hxy
          rcases hbc with hyz | ⟨hyz, hr2⟩
          · exact Or.inl hyz
          · exact Or.inr ⟨hyz, ih _ _ hr1 hr2⟩

theorem lexLe_antisymm : ∀ a b, lexLe a b = true → lexLe b a = true → a = b := by
  intro a
  induction a with
  | nil =>
    intro b _ hba
    cases b with
    | nil => rfl
    | cons d ds => simp [lexLe] at hba
  | cons c cs ih =>
    intro b hab hba
    cases b with
    | nil => simp [lexLe] at hab
    | cons d ds =>
      rw [lexLe_cons_iff] at hab hba
      rcases hab with h | ⟨h, hr1⟩
      · rcases hba with h' | ⟨h', _⟩
        · exact absurd (lt_trans h h') (lt_irrefl c)
        · exact absurd h (h' ▸ lt_irrefl d)
      · subst h
        rcases hba with h' | ⟨_, hr2⟩
        · exact absurd h' (lt_irrefl c)
        · rw [ih ds hr1 hr2]

instance : IsTotal (List Char) pathLe := ⟨fun a b => lexLe_total a b⟩

instance : IsTrans (List Char) pathLe := ⟨fun a b c => lexLe_trans a b c⟩

instance : IsAntisymm (List Char) pathLe := ⟨fun a b => lexLe_antisymm a b⟩

/-!
### Deno std `path` (posix), re-exported by `deps.ts`

Modelled from the spec: `deps.ts` is not among the sources; it re-exports
`posix.normalize`, `join` and `relative` from the Deno standard library.  The
definitions below follow the standard library's posix implementations:
`normalizeString` resolves `.` and `..` segments (keeping leading `..` only
for relative paths), `normalize` additionally preserves a leading and a
trailing separator, and `join` concatenates the non-empty parts with `/` and
normalizes the result.
-/

/-- One step of the Deno std `normalizeString` segment loop: skip empty and
`.` segments, resolve `..` against the accumulated output. -/
def normSegStep (allowAboveRoot : Bool) (res : List (List Char)) (seg : List Char) :
    List (List Char) :=
  if seg = [] ∨ seg = ['.'] then res
  else if seg = ['.', '.'] then
    if res ≠ [] ∧ res.getLast? ≠ some ['.', '.'] then res.dropLast
    else if allowAboveRoot then res ++ [['.', '.']]
    else res
  else res ++ [seg]

/-- Deno std `normalizeString` on the list of `/`-separated segments. -/
def normalizeSegments (allowAboveRoot : Bool) (segs : List (List Char)) : List (List Char) :=
  segs.foldl (normSegStep allowAboveRoot) []

/-- Deno std `posix.normalize`. -/
def pathNormalize (path : List Char) : List Char :=
  if path = [] then str "."
  else
    let isAbsolute := path.head? = some '/'
    let trailingSeparator := path.getLast? = some '/'
    let s := List.intercalate (str "/")
      (normalizeSegments (!isAbsolute) (path.splitOn '/'))
    let s := if s = [] ∧ ¬isAbsolute then str "." else s
    let s := if s ≠ [] ∧ trailingSeparator then s ++ str "/" else s
    if isAbsolute then '/' :: s else s

/-- Deno std `posix.join`: drop empty parts, interleave `/`, normalize; `.`
when nothing remains. -/
def pathJoin (paths : List (List Char)) : List Char :=
  if paths = [] then str "."
  else
    match paths.filter (fun p => !p.isEmpty) with
    | [] => str "."
    | nonEmpty => pathNormalize (List.intercalate (str "/") nonEmpty)

/-!
### `toImportSpecifier` (src/dev/mod.ts, lines 93-99)
-/

/-- The `.replace(/\\/g, "/")` call: every backslash becomes a forward
slash. -/
def backslashToSlash (l : List Char) : List Char :=
  l.map (fun c => if c = '\\' then '/' else c)

/-- `toImportSpecifier` from src/dev/mod.ts: posix-normalize, replace
backslashes, and prefix `./` unless the specifier already starts with
`..`. -/
def toImportSpecifier (file : List Char) : List Char :=
  let specifier := backslashToSlash (pathNormalize file)
  if (str "..").isPrefixOf specifier then specifier
  else str "./" ++ specifier

theorem backslashToSlash_no_backslash (l : List Char) :
    ∀ c ∈ backslashToSlash l, c ≠ '\\' := by
  intro c hc
  rcases List.mem_map.mp hc with ⟨d, _, hd⟩
  by_cases h : d = '\\'
  · rw [if_pos h] at hd
    subst hd; decide
  · rw [if_neg h] at hd
    subst hd; exact h

/-- C9. `toImportSpecifier` yields a specifier with no backslash in it, which
starts with `./` or with `..`; when the normalized, slash-converted path
already starts with `..` it is returned unchanged (leading `..` intact). -/
theorem toImportSpecifier_shape (file : List Char) :
    (∀ c ∈ toImportSpecifier file, c ≠ '\\') ∧
    (str "./" <+: toImportSpecifier file ∨ str ".." <+: toImportSpecifier file) ∧
    ((str "..").isPrefixOf (backslashToSlash (pathNormalize file)) = true →
      toImportSpecifier file = backslashToSlash (pathNormalize file)) := by
  unfold toImportSpecifier
  by_cases h : (str "..").isPrefixOf (backslashToSlash (pathNormalize file)) = true
  · rw [if_pos h]
    refine ⟨backslashToSlash_no_backslash _, Or.inr ?_, fun _ => rfl⟩
    exact List.isPrefixOf_iff_prefix.mp h
  · rw [if_neg h]
    refine ⟨?_, Or.inl ⟨backslashToSlash (pathNormalize file), rfl⟩, fun h' => absurd h' h⟩
    intro c hc
    rcases List.mem_append.mp hc with hc' | hc'
    · fin_cases hc' <;> decide
    · exact backslashToSlash_no_backslash _ c hc'

/-- C9 witness: the shape property evaluated at a concrete input. -/
theorem toImportSpecifier_shape_witness :
    (∀ c ∈ toImportSpecifier (str "routes/a.ts"), c ≠ '\\') ∧
    (str "./" <+: toImportSpecifier (str "routes/a.ts") ∨
      str ".." <+: toImportSpecifier (str "routes/a.ts")) ∧
    ((str "..").isPrefixOf (backslashToSlash (pathNormalize (str "routes/a.ts"))) = true →
      toImportSpecifier (str "routes/a.ts") =
        backslashToSlash (pathNormalize (str "routes/a.ts"))) :=
  toImportSpecifier_shape (str "routes/a.ts")

/-!
### The generated manifest module text (src/dev/mod.ts, lines 101-154)

`generate(directory, cwd, manifest)` first computes
`rel = relative(directory, cwd)` (std `relative`, via `deps.ts`); the template
below takes `rel` as an argument.  The template text is reproduced verbatim;
the external `deno fmt` subprocess the text is subsequently piped through is
not modelled (it reformats whitespace only).
-/

/-- Decimal digits, with explicit fuel so that the definition is structurally
recursive (a number `n` has at most `n + 1` digits). -/
def natDigitsCore : Nat → Nat → List Char
  | 0, _ => []
  | fuel + 1, n =>
    if n < 10 then [Char.ofNat (48 + n)]
    else natDigitsCore fuel (n / 10) ++ [Char.ofNat (48 + n % 10)]

/-- Decimal digits of a natural number, as the JS template interpolation
`${i}` renders it. -/
def natDigits (n : Nat) : List Char := natDigitsCore (n + 1) n

/-- Lower-case hex digit, used by `JSON.stringify` control-character
escapes. -/
def hexDigit (n : Nat) : Char :=
  if n < 10 then Char.ofNat (48 + n) else Char.ofNat (87 + n)

/-- How `JSON.stringify` escapes one character of a string. -/
def jsonEscapeChar (c : Char) : List Char :=
  if c = '"' then str "\\\""
  else if c = '\\' then str "\\\\"
  else if c = Char.ofNat 8 then str "\\b"
  else if c = Char.ofNat 12 then str "\\f"
  else if c = '\n' then str "\\n"
  else if c = Char.ofNat 13 then str "\\r"
  else if c = Char.ofNat 9 then str "\\t"
  else if c.toNat < 32 then str "\\u00" ++ [hexDigit (c.toNat / 16), hexDigit (c.toNat % 16)]
  else [c]

/-- `JSON.stringify` on a string value: double quotes around the escaped
characters. -/
def jsonStringify (s : List Char) : List Char :=
  '"' :: (s.map jsonEscapeChar).flatten ++ ['"']

/-- One `import * as $<i> from "<specifier>";` line for a route. -/
def routeImportLine (rel : List Char) (i : Nat) (file : List Char) : List Char :=
  str "import * as $" ++ natDigits i ++ str " from \"" ++
    toImportSpecifier (pathJoin [rel, str "routes", file]) ++ str "\";"

/-- One `import * as $$<i> from "<specifier>";` line for an island. -/
def islandImportLine (rel : List Char) (i : Nat) (file : List Char) : List Char :=
  str "import * as $$" ++ natDigits i ++ str " from \"" ++
    toImportSpecifier (pathJoin [rel, str "islands", file]) ++ str "\";"

/-- The key under which a route is registered in the emitted `routes` object
literal: `JSON.stringify(toImportSpecifier(join("routes", file)))`, without
the surrounding quotes. -/
def routeKey (file : List Char) : List Char :=
  toImportSpecifier (pathJoin [str "routes", file])

/-- The key under which an island is registered in the emitted `islands`
object literal. -/
def islandKey (file : List Char) : List Char :=
  toImportSpecifier (pathJoin [str "islands", file])

/-- One `"<key>": $<i>,` entry of the emitted `routes` object literal. -/
def routeEntryLine (i : Nat) (file : List Char) : List Char :=
  jsonStringify (routeKey file) ++ str ": $" ++ natDigits i ++ str ","

/-- One `"<key>": $$<i>,` entry of the emitted `islands` object literal. -/
def islandEntryLine (i : Nat) (file : List Char) : List Char :=
  jsonStringify (islandKey file) ++ str ": $$" ++ natDigits i ++ str ","

/-- The full source text `generate` builds (the `output` template literal of
src/dev/mod.ts, lines 109-154), before it is piped through `deno fmt`. -/
def generateOutput (rel : List Char) (routes islands : List (List Char)) : List Char :=
  str "// DO NOT EDIT. This file is generated by Fresh.\n// This file SHOULD be checked into source version control.\n// This file is automatically updated during development when running `dev.ts`.\n\n" ++
  List.intercalate (str "\n") (routes.enum.map (fun p => routeImportLine rel p.1 p.2)) ++
  str "\n" ++
  List.intercalate (str "\n") (islands.enum.map (fun p => islandImportLine rel p.1 p.2)) ++
  str "\n\nconst manifest = \x7b\n  routes: \x7b\n    " ++
  List.intercalate (str "\n    ") (routes.enum.map (fun p => routeEntryLine p.1 p.2)) ++
  str "\n  \x7d,\n  islands: \x7b\n    " ++
  List.intercalate (str "\n    ") (islands.enum.map (fun p => islandEntryLine p.1 p.2)) ++
  str "\n  \x7d,\n  baseUrl: import.meta.url,\n\x7d;\n\nexport default manifest;\n"

/-- The list of keys of the emitted `routes` object literal. -/
def routeKeys (routes : List (List Char)) : List (List Char) :=
  routes.map routeKey

set_option maxRecDepth 200000 in
/-- C1 counterexample.  For `routes=["a.ts","b/c.ts"]` the emitted `routes`
object keys are NOT `"./a.ts"` and `"./b/c.ts"`: the code builds each key
from `join("routes", file)`, so the quoted key `"./a.ts"` never occurs in the
generated text. -/
theorem generate_claimed_keys_false :
    routeKeys [str "a.ts", str "b/c.ts"] ≠ [str "./a.ts", str "./b/c.ts"] ∧
    ¬ (str "\"./a.ts\"") <:+: generateOutput (str "..") [str "a.ts", str "b/c.ts"] [] := by
  exact ⟨by decide, by decide⟩

set_option maxRecDepth 200000 in
/-- C1 (amended).  For `routes=["a.ts","b/c.ts"]` and `islands=[]` the
generated source contains a `routes` object literal with exactly two keys,
`"./routes/a.ts"` and `"./routes/b/c.ts"`, mapped to the distinct import
aliases `$0` and `$1`, and a `baseUrl` field is present in the emitted
object. -/
theorem generate_routes_keys :
    routeKeys [str "a.ts", str "b/c.ts"] = [str "./routes/a.ts", str "./routes/b/c.ts"] ∧
    (str "\"./routes/a.ts\": $0,") <:+: generateOutput (str "..") [str "a.ts", str "b/c.ts"] [] ∧
    (str "\"./routes/b/c.ts\": $1,") <:+: generateOutput (str "..") [str "a.ts", str "b/c.ts"] [] ∧
    str "$0" ≠ str "$1" ∧
    (str "baseUrl: import.meta.url,") <:+: generateOutput (str "..") [str "a.ts", str "b/c.ts"] [] := by
  exact ⟨by decide, by decide, by decide, by decide, by decide⟩

/-!
### Change detection (src/dev/mod.ts, lines 206-224 and 289-295)
-/

/-- A manifest value: the two path lists collected from `routes/` and
`islands/` (src/dev/mod.ts, lines 85-88). -/
structure Manifest where
  routes : List (List Char)
  islands : List (List Char)
deriving DecidableEq

/-- `arraysEqual` from src/dev/mod.ts: length check, then element-wise
comparison at each index. -/
def arraysEqual {α : Type} [DecidableEq α] (a b : List α) : Bool :=
  if a.length ≠ b.length then false
  else (a.zip b).all (fun p => p.1 = p.2)

/-- `manifestChanged` as computed in `dev()` (lines 216-218): the new and the
previously recorded manifest differ on `routes` or on `islands`. -/
def manifestChanged (newManifest currentManifest : Manifest) : Bool :=
  !arraysEqual newManifest.routes currentManifest.routes ||
  !arraysEqual newManifest.islands currentManifest.islands

theorem arraysEqual_cons {α : Type} [DecidableEq α] (x y : α) (xs ys : List α) :
    arraysEqual (x :: xs) (y :: ys) = (decide (x = y) && arraysEqual xs ys) := by
  by_cases h : xs.length = ys.length
  · simp [arraysEqual, h]
  · simp [arraysEqual, h]

theorem arraysEqual_iff {α : Type} [DecidableEq α] : ∀ a b : List α,
    arraysEqual a b = true ↔ a = b := by
  intro a
  induction a with
  | nil =>
    intro b
    cases b with
    | nil => simp [arraysEqual]
    | cons y ys => simp [arraysEqual]
  | cons x xs ih =>
    intro b
    cases b with
    | nil => simp [arraysEqual]
    | cons y ys =>
      rw [arraysEqual_cons]
      simp [ih ys]

theorem manifestChanged_false_iff (newManifest currentManifest : Manifest) :
    manifestChanged newManifest currentManifest = false ↔
      (newManifest.routes = currentManifest.routes ∧
       newManifest.islands = currentManifest.islands) := by
  unfold manifestChanged
  rw [Bool.or_eq_false_iff]
  simp only [Bool.not_eq_false']
  rw [arraysEqual_iff, arraysEqual_iff]

theorem manifestChanged_true_iff (newManifest currentManifest : Manifest) :
    manifestChanged newManifest currentManifest = true ↔ newManifest ≠ currentManifest := by
  rw [← Bool.not_eq_false, not_iff_not.mpr (manifestChanged_false_iff _ _)]
  cases newManifest
  cases currentManifest
  simp [Manifest.mk.injEq]

/-- C2.  The change detector reports "unchanged" (i.e. `manifestChanged` is
`false`) exactly when the two `routes` sequences and the two `islands`
sequences are element-wise equal in order and length; in particular an
order-only permutation of the same routes counts as changed. -/
theorem manifestChanged_iff (newManifest currentManifest : Manifest) :
    (manifestChanged newManifest currentManifest = false ↔
      (newManifest.routes = currentManifest.routes ∧
       newManifest.islands = currentManifest.islands)) ∧
    manifestChanged ⟨[str "a", str "b"], []⟩ ⟨[str "b", str "a"], []⟩ = true := by
  exact ⟨manifestChanged_false_iff _ _, by decide⟩

/-!
### The manifest phase of `dev()` (src/dev/mod.ts, lines 206-224)

The statements of `dev()` between the directory collection and the assets
cleanup are embedded as an explicit event trace, in source order:

* lines 206-212 read `FRSH_DEV_PREVIOUS_MANIFEST` from the process
  environment (`prevEnv` below holds the deserialized previous manifest;
  `JSON.parse`/`JSON.stringify` round-trip a manifest value faithfully, and
  an unset variable is `none`);
* line 214 writes the serialized new manifest back to the environment —
  before the change check and before any regeneration;
* lines 216-218 compute `manifestChanged`;
* lines 220-224 check whether the output manifest file exists (`hasOutDir`,
  the `exists` call modelled from the spec: `deps.ts` with the `exists`
  helper is not among the sources) and call `generate` if the file is
  missing or the manifest changed.  `generateSucceeds` says whether that
  external call (subprocess plus file write) succeeds.
-/

/-- One observable action of the manifest phase. -/
inductive DevEvent where
  | envSet (m : Manifest)
  | changeCheck (changed : Bool)
  | generateCall (m : Manifest)
  | generateFailed
deriving DecidableEq

/-- Result of the manifest phase: the event trace plus the values `dev()`
computed. -/
structure DevPhaseResult where
  events : List DevEvent
  generateCalled : Bool
  changed : Bool

/-- The empty manifest `{ islands: [], routes: [] }` used when no previous
manifest is recorded (line 211). -/
def emptyManifest : Manifest := { routes := [], islands := [] }

/-- Lines 206-224 of `dev()`, as an event trace. -/
def devManifestPhase (prevEnv : Option Manifest) (routePaths islandPaths : List (List Char))
    (hasOutDir : Bool) (generateSucceeds : Bool) : DevPhaseResult :=
  let currentManifest : Manifest :=
    match prevEnv with
    | some m => m
    | none => { islands := [], routes := [] }
  let newManifest : Manifest := { routes := routePaths, islands := islandPaths }
  let changed := manifestChanged newManifest currentManifest
  let callGen := !hasOutDir || changed
  { events := .envSet newManifest :: .changeCheck changed ::
      (if callGen then
        .generateCall newManifest :: (if generateSucceeds then [] else [.generateFailed])
      else []),
    generateCalled := callGen,
    changed := changed }

/-- The value of `FRSH_DEV_PREVIOUS_MANIFEST` after a trace of events,
starting from `init`. -/
def envAfterEvents (init : Option Manifest) : List DevEvent → Option Manifest
  | [] => init
  | .envSet m :: rest => envAfterEvents (some m) rest
  | .changeCheck _ :: rest => envAfterEvents init rest
  | .generateCall _ :: rest => envAfterEvents init rest
  | .generateFailed :: rest => envAfterEvents init rest

theorem devManifestPhase_events (prevEnv : Option Manifest) (r i : List (List Char))
    (hasOutDir generateSucceeds : Bool) :
    (devManifestPhase prevEnv r i hasOutDir generateSucceeds).events =
      .envSet ⟨r, i⟩ :: .changeCheck (manifestChanged ⟨r, i⟩ (prevEnv.getD emptyManifest)) ::
      (if (!hasOutDir || manifestChanged ⟨r, i⟩ (prevEnv.getD emptyManifest)) = true then
        .generateCall ⟨r, i⟩ :: (if generateSucceeds then [] else [.generateFailed])
      else []) := by
  cases prevEnv <;> rfl

theorem devManifestPhase_generateCalled (prevEnv : Option Manifest) (r i : List (List Char))
    (hasOutDir generateSucceeds : Bool) :
    (devManifestPhase prevEnv r i hasOutDir generateSucceeds).generateCalled =
      (!hasOutDir || manifestChanged ⟨r, i⟩ (prevEnv.getD emptyManifest)) := by
  cases prevEnv <;> rfl

theorem devManifestPhase_changed (prevEnv : Option Manifest) (r i : List (List Char))
    (hasOutDir generateSucceeds : Bool) :
    (devManifestPhase prevEnv r i hasOutDir generateSucceeds).changed =
      manifestChanged ⟨r, i⟩ (prevEnv.getD emptyManifest) := by
  cases prevEnv <;> rfl

/-- C6.  In a dev cycle, `generate` is invoked exactly when the output
manifest file is missing (`hasOutDir = false`) or the newly collected
manifest differs from the previously recorded one; when the file exists and
the manifest is unchanged, `generate` is not invoked. -/
theorem dev_generate_condition (prevEnv : Option Manifest) (r i : List (List Char))
    (hasOutDir generateSucceeds : Bool) :
    DevEvent.generateCall ⟨r, i⟩ ∈ (devManifestPhase prevEnv r i hasOutDir generateSucceeds).events ↔
      (hasOutDir = false ∨ Manifest.mk r i ≠ prevEnv.getD emptyManifest) := by
  rw [devManifestPhase_events]
  have key : (!hasOutDir || manifestChanged ⟨r, i⟩ (prevEnv.getD emptyManifest)) = true ↔
      (hasOutDir = false ∨ Manifest.mk r i ≠ prevEnv.getD emptyManifest) := by
    rw [Bool.or_eq_true_iff, Bool.not_eq_true']
    rw [manifestChanged_true_iff]
  by_cases hc : (!hasOutDir || manifestChanged ⟨r, i⟩ (prevEnv.getD emptyManifest)) = true
  · rw [if_pos hc]
    simp only [List.mem_cons]
    constructor
    · intro _; exact key.mp hc
    · intro _; simp
  · rw [if_neg hc]
    simp only [List.mem_cons, List.not_mem_nil, or_false]
    constructor
    · intro h
      rcases h with h | h
      · exact absurd h (by simp)
      · exact absurd h (by simp)
    · intro h
      exact absurd (key.mpr h) hc

/-- C7.  On a first run in a process lifetime (no previous manifest recorded
in the environment) the previous manifest is treated as empty lists, so the
change detector reports "changed" exactly when the new manifest has at least
one route or at least one island. -/
theorem dev_first_run_changed (r i : List (List Char)) (hasOutDir generateSucceeds : Bool) :
    (devManifestPhase none r i hasOutDir generateSucceeds).changed = true ↔
      (r ≠ [] ∨ i ≠ []) := by
  rw [devManifestPhase_changed, manifestChanged_true_iff]
  show Manifest.mk r i ≠ emptyManifest ↔ _
  unfold emptyManifest
  rw [ne_eq, Manifest.mk.injEq, not_and_or]

/-- C10.  The environment variable holding the previous manifest is
overwritten with the new manifest as the first action of the phase — before
the change check and before any regeneration — so after the phase the
recorded manifest equals the new one even when `generate` fails (no
rollback): the trace starts with the environment write, the environment ends
up holding the new manifest for every outcome, and with a failing `generate`
the failure event occurs precisely when `generate` was called. -/
theorem dev_env_set_before_check (prevEnv : Option Manifest) (r i : List (List Char))
    (hasOutDir generateSucceeds : Bool) :
    ((devManifestPhase prevEnv r i hasOutDir generateSucceeds).events.take 2 =
      [.envSet ⟨r, i⟩,
       .changeCheck (devManifestPhase prevEnv r i hasOutDir generateSucceeds).changed]) ∧
    envAfterEvents none (devManifestPhase prevEnv r i hasOutDir generateSucceeds).events =
      some ⟨r, i⟩ ∧
    (DevEvent.generateFailed ∈ (devManifestPhase prevEnv r i hasOutDir false).events ↔
      (devManifestPhase prevEnv r i hasOutDir false).generateCalled = true) := by
  refine ⟨?_, ?_, ?_⟩
  · rw [devManifestPhase_events, devManifestPhase_changed]
    rfl
  · rw [devManifestPhase_events]
    by_cases hc : (!hasOutDir || manifestChanged ⟨r, i⟩ (prevEnv.getD emptyManifest)) = true
    · rw [if_pos hc]
      cases generateSucceeds <;> rfl
    · rw [if_neg hc]
      rfl
  · rw [devManifestPhase_events, devManifestPhase_generateCalled]
    by_cases hc : (!hasOutDir || manifestChanged ⟨r, i⟩ (prevEnv.getD emptyManifest)) = true
    · rw [if_pos hc, hc]
      simp
    · rw [if_neg hc]
      simp only [List.mem_cons, List.not_mem_nil, or_false]
      constructor
      · intro h
        rcases h with h | h
        · exact absurd h (by simp)
        · exact absurd h (by simp)
      · intro h
        exact absurd h hc

/-!
### `collectDir` (src/dev/mod.ts, lines 49-83)

Modelled from the spec where `deps.ts` functions are involved: `walk` (Deno
std `fs/walk`, called with `includeDirs: false, includeFiles: true,
exts: ["tsx","jsx","ts","js"]`) is a depth-first, in-order traversal
yielding only files whose name ends in one of the four extensions, and
`relative(dir, entry.path)` is the path of the entry relative to the scanned
root, so the model walks an inductive directory tree and yields
root-relative paths directly.  `Deno.stat` is modelled by a `StatOutcome`
argument: the stat of a path can find a directory or a non-directory, fail
with `NotFound`, or fail with any other error.
-/

/-- The extension allow-list of the `walk` call (line 64). -/
def allowedExts : List (List Char) := [str "tsx", str "jsx", str "ts", str "js"]

/-- Whether a file name carries one of the allowed extensions. -/
def matchesExt (name : List Char) : Bool :=
  allowedExts.any (fun e => ('.' :: e).isSuffixOf name)

/-- A directory tree: named files and named sub-directories. -/
inductive FsEntry where
  | file (name : List Char)
  | dir (name : List Char) (children : List FsEntry)

mutual

/-- Walk one entry, yielding root-relative paths of matching files. -/
def walkEntry (pre : List Char) : FsEntry → List (List Char)
  | .file n => if matchesExt n then [pre ++ n] else []
  | .dir n cs => walkEntriesList (pre ++ n ++ ['/']) cs

/-- Walk a list of sibling entries in order. -/
def walkEntriesList (pre : List Char) : List FsEntry → List (List Char)
  | [] => []
  | e :: rest => walkEntry pre e ++ walkEntriesList pre rest

end

/-- `relative(dir, entry.path).split(".").slice(0, -1).join(".")` (lines
68-69): the route/island key of a relative path. -/
def stripExt (p : List Char) : List Char :=
  List.intercalate ['.'] ((p.splitOn '.').dropLast)

/-- Outcome of the `Deno.stat(dir)` call (lines 52-57). -/
inductive StatOutcome where
  | found (isDirectory : Bool)
  | notFound
  | otherError (msg : List Char)
deriving DecidableEq

/-- Errors `collectDir` can raise. -/
inductive CollectError where
  | conflict (dir : List Char) (key : List Char)
  | statError (msg : List Char)
deriving DecidableEq

instance {ε α : Type} [DecidableEq ε] [DecidableEq α] : DecidableEq (Except ε α) := fun a b =>
  match a, b with
  | .ok x, .ok y =>
    if h : x = y then isTrue (by rw [h])
    else isFalse (fun he => by cases he; exact h rfl)
  | .error x, .error y =>
    if h : x = y then isTrue (by rw [h])
    else isFalse (fun he => by cases he; exact h rfl)
  | .ok _, .error _ => isFalse (fun he => by cases he)
  | .error _, .ok _ => isFalse (fun he => by cases he)

/-- The message of a raised error; for a conflict it is the template of line
73, which appends the scanned directory and the duplicated key. -/
def collectErrorMessage : CollectError → List Char
  | .conflict dir key =>
      str "Route conflict detected. Multiple files have the same name: " ++ dir ++ key
  | .statError m => m

/-- The `for await` loop of lines 67-79: throw a conflict on a duplicated
key, otherwise record the key and keep the path. -/
def processEntries (dir : List Char) :
    List (List Char) → List (List Char) → Except CollectError (List (List Char))
  | [], _ => .ok []
  | p :: rest, fileNames =>
    let key := stripExt p
    if key ∈ fileNames then .error (.conflict dir key)
    else
      match processEntries dir rest (key :: fileNames) with
      | .error e => .error e
      | .ok tail => .ok (p :: tail)

/-- `collectDir` (lines 49-83): empty result when the path is missing or not
a directory, propagate any other stat error, else walk, detect conflicts and
sort.  `paths.sort()` is modelled by insertion sort with the lexicographic
order — for a linear order every comparison sort produces this same
list. -/
def collectDir (dir : List Char) (st : StatOutcome) (tree : List FsEntry) :
    Except CollectError (List (List Char)) :=
  match st with
  | .found false => .ok []
  | .notFound => .ok []
  | .otherError m => .error (.statError m)
  | .found true =>
    match processEntries dir (walkEntriesList [] tree) [] with
    | .error e => .error e
    | .ok paths => .ok (paths.insertionSort pathLe)

/-- The stripped keys of all matching files of a tree, in walk order. -/
def walkKeys (tree : List FsEntry) : List (List Char) :=
  (walkEntriesList [] tree).map stripExt

theorem processEntries_ok (dir : List Char) :
    ∀ entries seen : List (List Char),
      (seen ++ entries.map stripExt).Nodup →
      processEntries dir entries seen = .ok entries := by
  intro entries
  induction entries with
  | nil => intro seen _; rfl
  | cons p rest ih =>
    intro seen h
    rw [List.map_cons] at h
    have h' : (stripExt p :: (seen ++ rest.map stripExt)).Nodup := List.nodup_middle.mp h
    have hmem : stripExt p ∉ seen := fun hs =>
      (List.nodup_cons.mp h').1 (List.mem_append.mpr (Or.inl hs))
    have hrec := ih (stripExt p :: seen) h'
    unfold processEntries
    rw [if_neg hmem, hrec]

theorem processEntries_error (dir : List Char) :
    ∀ entries seen : List (List Char),
      seen.Nodup →
      ¬ (seen ++ entries.map stripExt).Nodup →
      ∃ key, processEntries dir entries seen = .error (.conflict dir key) ∧
        ((key ∈ seen ∧ key ∈ entries.map stripExt) ∨
          2 ≤ (entries.map stripExt).count key) := by
  intro entries
  induction entries with
  | nil =>
    intro seen hs h
    exact absurd (by simpa using hs) h
  | cons p rest ih =>
    intro seen hs h
    by_cases hmem : stripExt p ∈ seen
    · refine ⟨stripExt p, ?_, Or.inl ⟨hmem, by simp⟩⟩
      unfold processEntries
      rw [if_pos hmem]
    · have hs' : (stripExt p :: seen).Nodup := List.nodup_cons.mpr ⟨hmem, hs⟩
      have h' : ¬ ((stripExt p :: seen) ++ rest.map stripExt).Nodup := by
        intro hnd
        exact h (by rw [List.map_cons]; exact List.nodup_middle.mpr hnd)
      rcases ih (stripExt p :: seen) hs' h' with ⟨key, hres, hloc⟩
      refine ⟨key, ?_, ?_⟩
      · unfold processEntries
        rw [if_neg hmem, hres]
      · rcases hloc with ⟨hkseen, hkrest⟩ | hcount
        · rcases List.mem_cons.mp hkseen with hk | hk
          · right
            subst hk
            rw [List.map_cons, List.count_cons_self]
            have : 0 < (rest.map stripExt).count (stripExt p) :=
              List.count_pos_iff.mpr hkrest
            omega
          · exact Or.inl ⟨hk, List.mem_cons.mpr (Or.inr hkrest)⟩
        · right
          rw [List.map_cons, List.count_cons]
          omega

/-- C3.  For every tree whose matching files have pairwise distinct stripped
keys, `collectDir` on an existing directory succeeds with a list that is
sorted lexicographically and is a permutation of the walked matching files —
exactly one entry per matching file, none for directories or files with
other extensions. -/
theorem collectDir_sorted_complete (dir : List Char) (tree : List FsEntry)
    (h : (walkKeys tree).Nodup) :
    ∃ l, collectDir dir (.found true) tree = .ok l ∧
      l.Sorted pathLe ∧ l.Perm (walkEntriesList [] tree) := by
  have hok := processEntries_ok dir (walkEntriesList [] tree) [] h
  refine ⟨(walkEntriesList [] tree).insertionSort pathLe, ?_, ?_, ?_⟩
  · unfold collectDir
    rw [hok]
  · exact List.sorted_insertionSort pathLe _
  · exact List.perm_insertionSort pathLe _

/-- C3 witness: a tree with a nested directory, a non-matching file and
distinct keys. -/
theorem collectDir_sorted_complete_witness :
    (walkKeys [FsEntry.file (str "b.ts"),
      FsEntry.dir (str "a") [FsEntry.file (str "c.ts"), FsEntry.file (str "d.css")]]).Nodup ∧
    ∃ l, collectDir (str "/r") (.found true)
        [FsEntry.file (str "b.ts"),
          FsEntry.dir (str "a") [FsEntry.file (str "c.ts"), FsEntry.file (str "d.css")]] = .ok l ∧
      l.Sorted pathLe ∧
      l.Perm (walkEntriesList []
        [FsEntry.file (str "b.ts"),
          FsEntry.dir (str "a") [FsEntry.file (str "c.ts"), FsEntry.file (str "d.css")]]) :=
  ⟨by decide, collectDir_sorted_complete (str "/r") _ (by decide)⟩

/-- C4.  For every tree with two matching files sharing a stripped key,
`collectDir` on an existing directory fails with a conflict error carrying
the scanned directory and a key duplicated among the walked keys, and whose
message names both; no result is returned (the `Except` is an `error`). -/
theorem collectDir_conflict (dir : List Char) (tree : List FsEntry)
    (h : ¬ (walkKeys tree).Nodup) :
    ∃ key, collectDir dir (.found true) tree = .error (.conflict dir key) ∧
      2 ≤ (walkKeys tree).count key ∧
      dir <:+: collectErrorMessage (.conflict dir key) ∧
      key <:+: collectErrorMessage (.conflict dir key) := by
  rcases processEntries_error dir (walkEntriesList [] tree) [] List.nodup_nil h with
    ⟨key, hres, hloc⟩
  have hcount : 2 ≤ (walkKeys tree).count key := by
    rcases hloc with ⟨hk, _⟩ | hc
    · exact absurd hk (List.not_mem_nil key)
    · exact hc
  refine ⟨key, ?_, hcount, ?_, ?_⟩
  · unfold collectDir
    rw [hres]
  · exact ⟨str "Route conflict detected. Multiple files have the same name: ", key, rfl⟩
  · exact ⟨str "Route conflict detected. Multiple files have the same name: " ++ dir, [],
      by simp [collectErrorMessage]⟩

/-- C4 witness: `foo.ts` and `foo.tsx` in the same directory collide on the
key `foo`. -/
theorem collectDir_conflict_witness :
    ¬ (walkKeys [FsEntry.file (str "foo.ts"), FsEntry.file (str "foo.tsx")]).Nodup ∧
    ∃ key, collectDir (str "/r") (.found true)
        [FsEntry.file (str "foo.ts"), FsEntry.file (str "foo.tsx")] =
        .error (.conflict (str "/r") key) ∧
      2 ≤ (walkKeys [FsEntry.file (str "foo.ts"), FsEntry.file (str "foo.tsx")]).count key ∧
      (str "/r") <:+: collectErrorMessage (.conflict (str "/r") key) ∧
      key <:+: collectErrorMessage (.conflict (str "/r") key) :=
  ⟨by decide, collectDir_conflict (str "/r") _ (by decide)⟩

/-- C5.  A `NotFound` stat error and a stat finding a non-directory both
yield an empty list without raising; any other stat error is propagated
unchanged. -/
theorem collectDir_stat_behavior (dir msg : List Char) (tree : List FsEntry) :
    collectDir dir .notFound tree = .ok [] ∧
    collectDir dir (.found false) tree = .ok [] ∧
    collectDir dir (.otherError msg) tree = .error (.statError msg) ∧
    collectErrorMessage (.statError msg) = msg :=
  ⟨rfl, rfl, rfl, rfl⟩

/-!
### `collectEntrypoints` (src/dev/mod.ts, lines 256-287)

A JS `Record<string, string>` is embedded as an insertion-ordered
association list with unique keys: assignment overwrites in place when the
key is present and appends otherwise, lookup takes the first (hence only)
binding.  `import.meta.resolve` maps a module specifier to an absolute URL;
the model keeps the specifier itself as the value, which preserves exactly
the key structure and the identity of each write.  The `try/catch` probe for
`@preact/signals` (lines 269-274) is the boolean `signalsResolvable`.
-/

/-- An island descriptor as used by `collectEntrypoints`. -/
structure Island where
  id : List Char
  url : List Char
deriving DecidableEq

/-- A plugin: a name and its declared build entrypoints
(`Object.entries(plugin.entrypoints ?? {})`, in declaration order). -/
structure Plugin where
  name : List Char
  entrypoints : List (List Char × List Char)
deriving DecidableEq

/-- JS object assignment `obj[k] = v`. -/
def recordSet (r : List (List Char × List Char)) (k v : List Char) :
    List (List Char × List Char) :=
  if r.any (fun p => p.1 == k) then
    r.map (fun p => if p.1 == k then (k, v) else p)
  else r ++ [(k, v)]

/-- JS object lookup `obj[k]`. -/
def recordGet (r : List (List Char × List Char)) (k : List Char) : Option (List Char) :=
  (r.find? (fun p => p.1 == k)).map Prod.snd

/-- The `entrypointBase` constant of line 261. -/
def entrypointBase : List Char := str "../runtime/entrypoints"

/-- Key of an island's bundle entry (line 277). -/
def islandEntryKey (id : List Char) : List Char := str "island-" ++ id

/-- Key of a plugin-declared bundle entry (line 282). -/
def pluginEntryKey (pluginName entryName : List Char) : List Char :=
  str "plugin-" ++ pluginName ++ str "-" ++ entryName

/-- `collectEntrypoints` (lines 256-287). -/
def collectEntrypoints (dev : Bool) (signalsResolvable : Bool)
    (islands : List Island) (plugins : List Plugin) : List (List Char × List Char) :=
  let entryPoints : List (List Char × List Char) :=
    [(str "main",
        if dev then entrypointBase ++ str "/main_dev.ts" else entrypointBase ++ str "/main.ts"),
     (str "deserializer", entrypointBase ++ str "/deserializer.ts")]
  let entryPoints :=
    if signalsResolvable then recordSet entryPoints (str "signals") (entrypointBase ++ str "/signals.ts")
    else entryPoints
  let entryPoints := islands.foldl
    (fun r isl => recordSet r (islandEntryKey isl.id) isl.url) entryPoints
  plugins.foldl
    (fun r p => p.entrypoints.foldl
      (fun r' e => recordSet r' (pluginEntryKey p.name e.1) e.2) r)
    entryPoints

/-- The sequence of object assignments `collectEntrypoints` performs, in
order. -/
def entrypointWrites (dev : Bool) (signalsResolvable : Bool)
    (islands : List Island) (plugins : List Plugin) : List (List Char × List Char) :=
  [(str "main",
      if dev then entrypointBase ++ str "/main_dev.ts" else entrypointBase ++ str "/main.ts"),
   (str "deserializer", entrypointBase ++ str "/deserializer.ts")] ++
  (if signalsResolvable then [(str "signals", entrypointBase ++ str "/signals.ts")] else []) ++
  islands.map (fun isl => (islandEntryKey isl.id, isl.url)) ++
  plugins.flatMap (fun p => p.entrypoints.map (fun e => (pluginEntryKey p.name e.1, e.2)))

/-- Perform a sequence of object assignments. -/
def applyWrites (r : List (List Char × List Char)) (ws : List (List Char × List Char)) :
    List (List Char × List Char) :=
  ws.foldl (fun r' w => recordSet r' w.1 w.2) r

/-- The value the key `k` holds after a sequence of writes, starting from
`fallback`: the value of the last write to `k`, if any. -/
def lastWriteValue (ws : List (List Char × List Char)) (k : List Char)
    (fallback : Option (List Char)) : Option (List Char) :=
  match ws with
  | [] => fallback
  | w :: rest => lastWriteValue rest k (if w.1 == k then some w.2 else fallback)

theorem find?_cons_true {α : Type} (p : α → Bool) (a : α) (l : List α) (h : p a = true) :
    (a :: l).find? p = some a := by
  simp [List.find?, h]

theorem find?_cons_false {α : Type} (p : α → Bool) (a : α) (l : List α) (h : p a = false) :
    (a :: l).find? p = l.find? p := by
  simp [List.find?, h]

theorem find?_map_set_ne (k v k' : List Char) (hne : k ≠ k') :
    ∀ r : List (List Char × List Char),
      (r.map (fun p => if p.1 == k then (k, v) else p)).find? (fun p => p.1 == k') =
        r.find? (fun p => p.1 == k') := by
  intro r
  induction r with
  | nil => rfl
  | cons p rest ih =>
    rw [List.map_cons]
    by_cases hp : (p.1 == k) = true
    · rw [if_pos hp]
      have h2 : (p.1 == k') = false :=
        beq_eq_false_iff_ne.mpr (by rw [beq_iff_eq.mp hp]; exact hne)
      rw [find?_cons_false (fun p => p.1 == k') (k, v) _ (beq_eq_false_iff_ne.mpr hne)]
      rw [find?_cons_false (fun p => p.1 == k') p _ h2]
      exact ih
    · rw [if_neg hp]
      by_cases hp' : (p.1 == k') = true
      · rw [find?_cons_true (fun p => p.1 == k') p _ hp',
          find?_cons_true (fun p => p.1 == k') p _ hp']
      · rw [find?_cons_false (fun p => p.1 == k') p _ (Bool.of_not_eq_true hp'),
          find?_cons_false (fun p => p.1 == k') p _ (Bool.of_not_eq_true hp')]
        exact ih

theorem find?_map_set_self (k v : List Char) :
    ∀ r : List (List Char × List Char),
      r.any (fun p => p.1 == k) = true →
      (r.map (fun p => if p.1 == k then (k, v) else p)).find? (fun p => p.1 == k) =
        some (k, v) := by
  intro r
  induction r with
  | nil => intro h; simp at h
  | cons p rest ih =>
    intro hany
    rw [List.map_cons]
    by_cases hp : (p.1 == k) = true
    · rw [if_pos hp]
      exact find?_cons_true (fun p => p.1 == k) (k, v) _ (by simp)
    · rw [if_neg hp]
      rw [find?_cons_false (fun p => p.1 == k) p _ (Bool.of_not_eq_true hp)]
      rw [List.any_cons] at hany
      rcases Bool.or_eq_true_iff.mp hany with h | h
      · exact absurd h hp
      · exact ih h

theorem recordGet_recordSet (r : List (List Char × List Char)) (k v k' : List Char) :
    recordGet (recordSet r k v) k' = if k' = k then some v else recordGet r k' := by
  unfold recordSet recordGet
  by_cases hany : r.any (fun p => p.1 == k) = true
  · rw [if_pos hany]
    by_cases hk : k' = k
    · rw [if_pos hk, hk, find?_map_set_self k v r hany]
      rfl
    · rw [if_neg hk, find?_map_set_ne k v k' (Ne.symm hk)]
  · rw [if_neg hany]
    have hnone : r.find? (fun p => p.1 == k) = none := by
      rw [List.find?_eq_none]
      intro x hx hpx
      exact hany (List.any_eq_true.mpr ⟨x, hx, hpx⟩)
    by_cases hk : k' = k
    · rw [if_pos hk, hk, List.find?_append, hnone]
      rw [find?_cons_true (fun p => p.1 == k) (k, v) _ (by simp)]
      rfl
    · rw [if_neg hk, List.find?_append]
      have hsingle : (([(k, v)] : List (List Char × List Char)).find? (fun p => p.1 == k')) =
          none := by
        rw [List.find?_eq_none]
        intro x hx hpx
        rw [List.mem_singleton] at hx
        subst hx
        exact (Ne.symm hk) (beq_iff_eq.mp hpx)
      rw [hsingle]
      rw [Option.or_none]

theorem recordGet_applyWrites (ws : List (List Char × List Char)) :
    ∀ (r : List (List Char × List Char)) (k : List Char),
      recordGet (applyWrites r ws) k = lastWriteValue ws k (recordGet r k) := by
  induction ws with
  | nil => intro r k; rfl
  | cons w rest ih =>
    intro r k
    show recordGet (applyWrites (recordSet r w.1 w.2) rest) k =
      lastWriteValue rest k (if w.1 == k then some w.2 else recordGet r k)
    rw [ih]
    congr 1
    rw [recordGet_recordSet]
    by_cases hk : k = w.1
    · subst hk
      rw [if_pos rfl, if_pos (by simp)]
    · rw [if_neg hk, if_neg (by rw [beq_eq_false_iff_ne.mpr (Ne.symm hk)]; exact Bool.false_ne_true)]

theorem lastWriteValue_append (ws1 ws2 : List (List Char × List Char)) (k : List Char) :
    ∀ fb, lastWriteValue (ws1 ++ ws2) k fb = lastWriteValue ws2 k (lastWriteValue ws1 k fb) := by
  induction ws1 with
  | nil => intro fb; rfl
  | cons w rest ih =>
    intro fb
    show lastWriteValue (rest ++ ws2) k (if w.1 == k then some w.2 else fb) = _
    rw [ih]
    rfl

theorem lastWriteValue_no_key (ws : List (List Char × List Char)) (k : List Char) :
    ∀ fb, (∀ w ∈ ws, (w.1 == k) = false) → lastWriteValue ws k fb = fb := by
  induction ws with
  | nil => intro fb _; rfl
  | cons w rest ih =>
    intro fb h
    show lastWriteValue rest k (if w.1 == k then some w.2 else fb) = fb
    rw [h w (List.mem_cons_self w rest)]
    exact ih fb (fun w' hw' => h w' (List.mem_cons_of_mem w hw'))

theorem lastWriteValue_isSome_mono (ws : List (List Char × List Char)) (k : List Char) :
    ∀ fb, fb.isSome = true → (lastWriteValue ws k fb).isSome = true := by
  induction ws with
  | nil => intro fb h; exact h
  | cons w rest ih =>
    intro fb h
    show (lastWriteValue rest k (if w.1 == k then some w.2 else fb)).isSome = true
    by_cases hw : (w.1 == k) = true
    · rw [if_pos hw]
      exact ih _ rfl
    · rw [if_neg hw]
      exact ih fb h

theorem lastWriteValue_isSome_of_key (ws : List (List Char × List Char)) (k : List Char) :
    ∀ fb, (∃ w ∈ ws, (w.1 == k) = true) → (lastWriteValue ws k fb).isSome = true := by
  induction ws with
  | nil => intro fb h; rcases h with ⟨w, hw, _⟩; exact absurd hw (List.not_mem_nil w)
  | cons w rest ih =>
    intro fb h
    show (lastWriteValue rest k (if w.1 == k then some w.2 else fb)).isSome = true
    by_cases hw : (w.1 == k) = true
    · rw [if_pos hw]
      exact lastWriteValue_isSome_mono rest k _ rfl
    · rw [if_neg hw]
      rcases h with ⟨w', hw', hkey⟩
      rcases List.mem_cons.mp hw' with he | he
      · exact absurd (he ▸ hkey) hw
      · exact ih fb ⟨w', he, hkey⟩

theorem applyWrites_append (r : List (List Char × List Char))
    (ws1 ws2 : List (List Char × List Char)) :
    applyWrites r (ws1 ++ ws2) = applyWrites (applyWrites r ws1) ws2 :=
  List.foldl_append _ r ws1 ws2

theorem islandFold_eq (islands : List Island) (acc : List (List Char × List Char)) :
    islands.foldl (fun r isl => recordSet r (islandEntryKey isl.id) isl.url) acc =
      applyWrites acc (islands.map (fun isl => (islandEntryKey isl.id, isl.url))) := by
  unfold applyWrites
  rw [List.foldl_map]

theorem pluginFold_eq (plugins : List Plugin) :
    ∀ acc : List (List Char × List Char),
      plugins.foldl (fun r p => p.entrypoints.foldl
        (fun r' e => recordSet r' (pluginEntryKey p.name e.1) e.2) r) acc =
      applyWrites acc (plugins.flatMap
        (fun p => p.entrypoints.map (fun e => (pluginEntryKey p.name e.1, e.2)))) := by
  induction plugins with
  | nil => intro acc; rfl
  | cons p rest ih =>
    intro acc
    show rest.foldl _ (p.entrypoints.foldl _ acc) = _
    rw [List.flatMap_cons, applyWrites_append, ih]
    congr 1
    unfold applyWrites
    rw [List.foldl_map]

theorem collectEntrypoints_eq (dev sig : Bool) (islands : List Island) (plugins : List Plugin) :
    collectEntrypoints dev sig islands plugins =
      applyWrites [] (entrypointWrites dev sig islands plugins) := by
  unfold entrypointWrites
  rw [applyWrites_append, applyWrites_append, applyWrites_append]
  show (plugins.foldl (fun r p => p.entrypoints.foldl
        (fun r' e => recordSet r' (pluginEntryKey p.name e.1) e.2) r)
      (islands.foldl (fun r isl => recordSet r (islandEntryKey isl.id) isl.url)
        (if sig then
          recordSet [(str "main",
              if dev then entrypointBase ++ str "/main_dev.ts"
              else entrypointBase ++ str "/main.ts"),
            (str "deserializer", entrypointBase ++ str "/deserializer.ts")]
            (str "signals") (entrypointBase ++ str "/signals.ts")
        else
          [(str "main",
              if dev then entrypointBase ++ str "/main_dev.ts"
              else entrypointBase ++ str "/main.ts"),
            (str "deserializer", entrypointBase ++ str "/deserializer.ts")]))) = _
  rw [pluginFold_eq, islandFold_eq]
  congr 2
  cases sig <;> rfl

theorem islandEntryKey_beq_main (id : List Char) :
    (str "main" == islandEntryKey id) = false := rfl

theorem islandEntryKey_beq_main' (id : List Char) :
    (islandEntryKey id == str "main") = false := rfl

theorem islandEntryKey_beq_deserializer (id : List Char) :
    (islandEntryKey id == str "deserializer") = false := rfl

theorem signals_beq_islandEntryKey (id : List Char) :
    (str "signals" == islandEntryKey id) = false := rfl

theorem pluginEntryKey_beq_main (n e : List Char) :
    (pluginEntryKey n e == str "main") = false := rfl

theorem pluginEntryKey_beq_deserializer (n e : List Char) :
    (pluginEntryKey n e == str "deserializer") = false := rfl

theorem pluginEntryKey_beq_islandEntryKey (n e id : List Char) :
    (pluginEntryKey n e == islandEntryKey id) = false := rfl

theorem islandEntryKey_beq (a b : List Char) :
    (islandEntryKey a == islandEntryKey b) = (a == b) := rfl

theorem recordGet_collectEntrypoints (dev sig : Bool) (islands : List Island)
    (plugins : List Plugin) (k : List Char) :
    recordGet (collectEntrypoints dev sig islands plugins) k =
      lastWriteValue (entrypointWrites dev sig islands plugins) k none := by
  rw [collectEntrypoints_eq, recordGet_applyWrites]
  rfl

theorem lastWriteValue_cons (w : List Char × List Char) (ws : List (List Char × List Char))
    (k : List Char) (fb : Option (List Char)) :
    lastWriteValue (w :: ws) k fb = lastWriteValue ws k (if w.1 == k then some w.2 else fb) :=
  rfl

theorem sigOpt_no_key (sig : Bool) (k : List Char) (hsig : (str "signals" == k) = false) :
    ∀ w ∈ (if sig then [(str "signals", entrypointBase ++ str "/signals.ts")] else []),
      (w.1 == k) = false := by
  intro w hw
  cases sig with
  | false => simp at hw
  | true =>
    rw [if_pos rfl, List.mem_singleton] at hw
    subst hw
    exact hsig

theorem islandWrites_no_key (islands : List Island) (k : List Char)
    (h : ∀ isl ∈ islands, (islandEntryKey isl.id == k) = false) :
    ∀ w ∈ islands.map (fun isl => (islandEntryKey isl.id, isl.url)), (w.1 == k) = false := by
  intro w hw
  rcases List.mem_map.mp hw with ⟨isl, hisl, heq⟩
  subst heq
  exact h isl hisl

theorem pluginWrites_no_key (plugins : List Plugin) (k : List Char)
    (h : ∀ p ∈ plugins, ∀ e ∈ p.entrypoints, (pluginEntryKey p.name e.1 == k) = false) :
    ∀ w ∈ plugins.flatMap (fun p => p.entrypoints.map (fun e => (pluginEntryKey p.name e.1, e.2))),
      (w.1 == k) = false := by
  intro w hw
  rcases List.mem_flatMap.mp hw with ⟨p, hp, hw'⟩
  rcases List.mem_map.mp hw' with ⟨e, he, heq⟩
  subst heq
  exact h p hp e he

set_option maxRecDepth 20000 in
/-- C8 counterexample.  With two islands sharing the identifier `X`, the key
`island-X` maps to the URL of the later island, not to the URL of each
island bearing that identifier: the earlier island's URL `u1` is not in the
map. -/
theorem collectEntrypoints_claim_false :
    Island.mk (str "X") (str "u1") ∈
      [Island.mk (str "X") (str "u1"), Island.mk (str "X") (str "u2")] ∧
    recordGet (collectEntrypoints true false
        [Island.mk (str "X") (str "u1"), Island.mk (str "X") (str "u2")] [])
      (islandEntryKey (str "X")) = some (str "u2") ∧
    some (str "u2") ≠ some (str "u1") :=
  ⟨by decide, by decide, by decide⟩

/-- C8 (amended).  For every islands list and plugins list, the entrypoint
map contains the keys `main` and `deserializer`; it contains the key
`island-<id>` for each island, mapped to that island's URL whenever no later
island bears the same identifier (with duplicated identifiers the later
island's URL overwrites the earlier, mirroring the plugin behaviour); it
contains the key `plugin-<pluginName>-<entryName>` for each entry declared
by each plugin; and every key holds the value of the last write to it, so
that when two plugins with the same name declare the same entry name the
later plugin's URL overwrites the earlier one. -/
theorem collectEntrypoints_keys (dev sig : Bool) (islands : List Island)
    (plugins : List Plugin) :
    (recordGet (collectEntrypoints dev sig islands plugins) (str "main")).isSome = true ∧
    (recordGet (collectEntrypoints dev sig islands plugins) (str "deserializer")).isSome = true ∧
    (∀ islandsA islandsB (isl : Island), islands = islandsA ++ isl :: islandsB →
      (∀ j ∈ islandsB, j.id ≠ isl.id) →
      recordGet (collectEntrypoints dev sig islands plugins) (islandEntryKey isl.id) =
        some isl.url) ∧
    (∀ p ∈ plugins, ∀ e ∈ p.entrypoints,
      (recordGet (collectEntrypoints dev sig islands plugins)
        (pluginEntryKey p.name e.1)).isSome = true) ∧
    (∀ k, recordGet (collectEntrypoints dev sig islands plugins) k =
      lastWriteValue (entrypointWrites dev sig islands plugins) k none) := by
  refine ⟨?_, ?_, ?_, ?_, fun k => recordGet_collectEntrypoints dev sig islands plugins k⟩
  · rw [recordGet_collectEntrypoints]
    unfold entrypointWrites
    rw [lastWriteValue_append, lastWriteValue_append, lastWriteValue_append]
    rw [lastWriteValue_no_key _ _ _ (sigOpt_no_key sig (str "main") rfl)]
    rw [lastWriteValue_no_key _ _ _
      (islandWrites_no_key islands (str "main") (fun isl _ => islandEntryKey_beq_main' isl.id))]
    rw [lastWriteValue_no_key _ _ _
      (pluginWrites_no_key plugins (str "main") (fun p _ e _ => pluginEntryKey_beq_main p.name e.1))]
    rfl
  · rw [recordGet_collectEntrypoints]
    unfold entrypointWrites
    rw [lastWriteValue_append, lastWriteValue_append, lastWriteValue_append]
    rw [lastWriteValue_no_key _ _ _ (sigOpt_no_key sig (str "deserializer") rfl)]
    rw [lastWriteValue_no_key _ _ _
      (islandWrites_no_key islands (str "deserializer")
        (fun isl _ => islandEntryKey_beq_deserializer isl.id))]
    rw [lastWriteValue_no_key _ _ _
      (pluginWrites_no_key plugins (str "deserializer")
        (fun p _ e _ => pluginEntryKey_beq_deserializer p.name e.1))]
    rfl
  · intro islandsA islandsB isl hsplit hlater
    rw [recordGet_collectEntrypoints]
    unfold entrypointWrites
    rw [hsplit, List.map_append, List.map_cons]
    rw [lastWriteValue_append, lastWriteValue_append, lastWriteValue_append,
      lastWriteValue_cons]
    have hself : (((islandEntryKey isl.id, isl.url) : List Char × List Char).1 ==
        islandEntryKey isl.id) = true := beq_self_eq_true _
    rw [if_pos hself]
    rw [lastWriteValue_no_key _ _ _
      (islandWrites_no_key islandsB (islandEntryKey isl.id) (fun j hj => by
        rw [islandEntryKey_beq]
        exact beq_eq_false_iff_ne.mpr (hlater j hj)))]
    rw [lastWriteValue_no_key _ _ _
      (pluginWrites_no_key plugins (islandEntryKey isl.id)
        (fun p _ e _ => pluginEntryKey_beq_islandEntryKey p.name e.1 isl.id))]
  · intro p hp e he
    rw [recordGet_collectEntrypoints]
    unfold entrypointWrites
    apply lastWriteValue_isSome_of_key
    refine ⟨(pluginEntryKey p.name e.1, e.2), ?_, beq_self_eq_true _⟩
    refine List.mem_append.mpr (Or.inr ?_)
    exact List.mem_flatMap.mpr ⟨p, hp, List.mem_map.mpr ⟨e, he, rfl⟩⟩

set_option maxRecDepth 20000 in
/-- C8 witness: concrete islands and a concrete plugin. -/
theorem collectEntrypoints_keys_witness :
    (recordGet (collectEntrypoints true false
        [Island.mk (str "X") (str "u1"), Island.mk (str "Y") (str "u2")]
        [Plugin.mk (str "p") [(str "foo", str "u3")]]) (str "main")).isSome = true ∧
    recordGet (collectEntrypoints true false
        [Island.mk (str "X") (str "u1"), Island.mk (str "Y") (str "u2")]
        [Plugin.mk (str "p") [(str "foo", str "u3")]])
      (islandEntryKey (str "X")) = some (str "u1") ∧
    (recordGet (collectEntrypoints true false
        [Island.mk (str "X") (str "u1"), Island.mk (str "Y") (str "u2")]
        [Plugin.mk (str "p") [(str "foo", str "u3")]])
      (pluginEntryKey (str "p") (str "foo"))).isSome = true := by
  have h := collectEntrypoints_keys true false
    [Island.mk (str "X") (str "u1"), Island.mk (str "Y") (str "u2")]
    [Plugin.mk (str "p") [(str "foo", str "u3")]]
  refine ⟨h.1, ?_, ?_⟩
  · exact h.2.2.1 [] [Island.mk (str "Y") (str "u2")] (Island.mk (str "X") (str "u1")) rfl
      (by decide)
  · exact h.2.2.2.1 (Plugin.mk (str "p") [(str "foo", str "u3")]) (by decide)
      (str "foo", str "u3") (by decide)

end Fresh
